import Mathlib

/-!
Shallow embedding of the airline-hubs demo scripts (`demo-dqm.py` and
`demo_cqm.py`).  Matrices are embedded as total functions `ℕ → ℕ → ℚ`
(the scripts use floating-point numpy matrices; exact rationals stand in
for them), hub assignments as total functions `ℕ → ℕ`, and Python loops
as folds over `List.range` or as `Finset.range` sums when the loop only
accumulates a number.  Names with a `dqm_` marker come from `demo-dqm.py`
and names with a `cqm_` marker from `demo_cqm.py`.
-/

open Finset

/-- The ground-truth objective of the spec:
`cost = Σ_i Σ_j W[i][j] * (C[i][ss i] + C[j][ss j] + a * C[ss i][ss j])`
summed over all ordered pairs `(i, j)` of city indices below `n`. -/
def groundTruthCost (n : ℕ) (a : ℚ) (W C : ℕ → ℕ → ℚ) (ss : ℕ → ℕ) : ℚ :=
  ∑ i ∈ range n, ∑ j ∈ range n,
    W i j * (C i (ss i) + C j (ss j) + a * C (ss i) (ss j))

/-- Scalar accumulated by `get_cost` in `demo-dqm.py`: the loops are
`for i in range(n): for j in range(i+1, n): cost += dist_mat[i][j] *
(cost_mat[i][ss[i]] + cost_mat[j][ss[j]] + a*cost_mat[ss[i]][ss[j]])`. -/
def get_cost_sum (n : ℕ) (ss : ℕ → ℕ) (a : ℚ) (dist_mat cost_mat : ℕ → ℕ → ℚ) : ℚ :=
  ∑ i ∈ range n, ∑ j ∈ Finset.Ico (i + 1) n,
    dist_mat i j * (cost_mat i (ss i) + cost_mat j (ss j) + a * cost_mat (ss i) (ss j))

/-- Embedding of `get_cost` from `demo-dqm.py`: computes the cost of sample `ss`, stores it
in `cost_dict` under `index`, and returns the dictionary (the dictionary is
embedded as a total map `ℕ → ℚ`, matching `defaultdict(float)`). -/
def get_cost (index : ℕ) (ss : ℕ → ℕ) (a : ℚ) (dist_mat cost_mat : ℕ → ℕ → ℚ)
    (n : ℕ) (cost_dict : ℕ → ℚ) : ℕ → ℚ :=
  Function.update cost_dict index (get_cost_sum n ss a dist_mat cost_mat)

/-- Flow matrix used to separate `get_cost` from the ordered-pair objective:
all mass on the lower-triangle entry `(1,0)`. -/
def lowerW : ℕ → ℕ → ℚ := fun i j => if i = 1 ∧ j = 0 then 1 else 0

/-- All-ones cost matrix. -/
def onesC : ℕ → ℕ → ℚ := fun _ _ => 1

/-- C1: counterexample.  With `n = 2`, the flow matrix carrying all its mass
on the lower-triangle entry `(1,0)`, an all-ones cost matrix, `a = 0`, and the
identity assignment, `get_cost` computes `0` while the sum over all ordered
pairs of the per-pair contribution is `2`: `get_cost` only visits pairs with
`i < j`, so it is not the full ordered-pair objective. -/
theorem c1_get_cost_not_ordered_pair_sum :
    get_cost_sum 2 id 0 lowerW onesC ≠ groundTruthCost 2 0 lowerW onesC id := by
  have h1 : get_cost_sum 2 id 0 lowerW onesC = 0 := by
    norm_num [get_cost_sum, Finset.sum_Ico_eq_sum_range, Finset.sum_range_succ, lowerW, onesC]
  have h2 : groundTruthCost 2 0 lowerW onesC id = 2 := by
    norm_num [groundTruthCost, Finset.sum_range_succ, lowerW, onesC]
  rw [h1, h2]; norm_num

/-- C1 (amended): for every assignment `ss`, the cost computed by `get_cost`
in the DQM path equals the sum of
`W[i][j] * (C[i][ss i] + C[j][ss j] + a * C[ss i][ss j])` over the ordered
pairs `(i, j)` with `i < j` only (the strict upper triangle), not over all
ordered pairs. -/
theorem c1_get_cost_upper_triangle (n : ℕ) (ss : ℕ → ℕ) (a : ℚ)
    (W C : ℕ → ℕ → ℚ) :
    get_cost_sum n ss a W C
      = ∑ p ∈ (range n ×ˢ range n).filter (fun p => p.1 < p.2),
          W p.1 p.2 * (C p.1 (ss p.1) + C p.2 (ss p.2) + a * C (ss p.1) (ss p.2)) := by
  unfold get_cost_sum
  rw [Finset.sum_filter, Finset.sum_product]
  refine Finset.sum_congr rfl (fun i _ => ?_)
  have h : Finset.Ico (i + 1) n = (range n).filter (fun j => i < j) := by
    ext j
    simp only [Finset.mem_Ico, Finset.mem_filter, Finset.mem_range]
    omega
  rw [h, Finset.sum_filter]

/-- C10: `get_cost` returns the input dictionary with only the entry at key
`index` set (to the computed cost of `ss`); every other key keeps the value
it was bound to in `cost_dict`. -/
theorem c10_get_cost_frame (index : ℕ) (ss : ℕ → ℕ) (a : ℚ)
    (W C : ℕ → ℕ → ℚ) (n : ℕ) (cost_dict : ℕ → ℚ) :
    get_cost index ss a W C n cost_dict index = get_cost_sum n ss a W C ∧
    ∀ k, k ≠ index → get_cost index ss a W C n cost_dict k = cost_dict k := by
  constructor
  · simp [get_cost]
  · intro k hk
    simp [get_cost, Function.update_noteq hk]

/-- C10 witness: concrete instance at `index = 0`, key `k = 1`. -/
theorem c10_get_cost_frame_witness :
    (1 : ℕ) ≠ 0 ∧ get_cost 0 id 0 lowerW onesC 2 (fun _ => 5) 1 = 5 :=
  ⟨by decide, (c10_get_cost_frame 0 id 0 lowerW onesC 2 (fun _ => 5)).2 1 (by decide)⟩

/-- Embedding of `read_inputs` from both scripts: divides the raw flow matrix elementwise by
its total (`W = W/np.sum(np.sum(W))`), returns the cost matrix as read and
the dimension `n`. -/
def read_inputs (n : ℕ) (Wraw Craw : ℕ → ℕ → ℚ) :
    (ℕ → ℕ → ℚ) × (ℕ → ℕ → ℚ) × ℕ :=
  (fun i j => Wraw i j / (∑ i' ∈ range n, ∑ j' ∈ range n, Wraw i' j'), Craw, n)

/-- C7: when the raw flow matrix has strictly positive total sum, the flow
matrix returned by `read_inputs` sums to exactly `1`, and the cost matrix is
returned unchanged. -/
theorem c7_read_inputs_normalized (n : ℕ) (Wraw Craw : ℕ → ℕ → ℚ)
    (h : 0 < ∑ i ∈ range n, ∑ j ∈ range n, Wraw i j) :
    (∑ i ∈ range n, ∑ j ∈ range n, (read_inputs n Wraw Craw).1 i j = 1) ∧
    (read_inputs n Wraw Craw).2.1 = Craw := by
  refine ⟨?_, rfl⟩
  simp only [read_inputs]
  simp_rw [← Finset.sum_div]
  exact div_self (ne_of_gt h)

/-- C7 witness: a `1 × 1` flow matrix with entry `2` has positive total and
normalizes to total `1`. -/
theorem c7_read_inputs_normalized_witness :
    (0 < ∑ i ∈ range 1, ∑ j ∈ range 1, (fun _ _ => (2 : ℚ)) i j) ∧
    (∑ i ∈ range 1, ∑ j ∈ range 1,
      (read_inputs 1 (fun _ _ => (2 : ℚ)) (fun _ _ => 0)).1 i j = 1) :=
  ⟨by norm_num, (c7_read_inputs_normalized 1 (fun _ _ => 2) (fun _ _ => 0)
      (by norm_num)).1⟩

/-- One step of the `for key, val in ss.items()` loop of
`get_layout_from_sample` in `demo-dqm.py`: a self-assigned city is appended
to `hubs`; otherwise the leg `(city, assigned)` is appended to `legs`, and if
the assigned city is not itself self-assigned the `valid` flag is cleared. -/
def dqm_layout_step (ss : ℕ → ℕ) (names : ℕ → String)
    (st : List String × List (String × String) × Bool) (key : ℕ) :
    List String × List (String × String) × Bool :=
  if key = ss key then (st.1 ++ [names key], st.2.1, st.2.2)
  else (st.1, st.2.1 ++ [(names key, names (ss key))],
        if ss (ss key) ≠ ss key then false else st.2.2)

/-- The return step of `get_layout_from_sample` in `demo-dqm.py`: clears
`valid` when the number of hubs differs from `p`. -/
def dqm_layout_finalize (p : ℕ)
    (r : List String × List (String × String) × Bool) :
    List String × List (String × String) × Bool :=
  (r.1, r.2.1, if r.1.length ≠ p then false else r.2.2)

/-- Embedding of `get_layout_from_sample` from `demo-dqm.py`: folds the loop above over the
city indices (the sample dictionary iterates in key order `0, …, n-1`), then
clears `valid` when the number of hubs differs from `p`. -/
def dqm_get_layout_from_sample (n : ℕ) (ss : ℕ → ℕ) (names : ℕ → String)
    (p : ℕ) : List String × List (String × String) × Bool :=
  dqm_layout_finalize p
    ((List.range n).foldl (dqm_layout_step ss names) ([], [], true))

/-- One step of the `for key, val in ss.items()` loop of
`get_layout_from_sample` in `demo_cqm.py` (no validity flag there). -/
def cqm_layout_step (ss : ℕ → ℕ) (names : ℕ → String)
    (st : List String × List (String × String)) (key : ℕ) :
    List String × List (String × String) :=
  if key = ss key then (st.1 ++ [names key], st.2)
  else (st.1, st.2 ++ [(names key, names (ss key))])

/-- Embedding of `get_layout_from_sample` from `demo_cqm.py`. -/
def cqm_get_layout_from_sample (n : ℕ) (ss : ℕ → ℕ) (names : ℕ → String) :
    List String × List (String × String) :=
  (List.range n).foldl (cqm_layout_step ss names) ([], [])

lemma dqm_layout_foldl (ss : ℕ → ℕ) (names : ℕ → String) (l : List ℕ)
    (h : List String) (lg : List (String × String)) (v : Bool) :
    l.foldl (dqm_layout_step ss names) (h, lg, v) =
      (h ++ (l.filter (fun k => decide (k = ss k))).map names,
       lg ++ (l.filter (fun k => !decide (k = ss k))).map
          (fun k => (names k, names (ss k))),
       v && l.all (fun k => decide (k = ss k) || decide (ss (ss k) = ss k))) := by
  induction l generalizing h lg v with
  | nil => simp
  | cons x xs ih =>
    rw [List.foldl_cons]
    by_cases hx : x = ss x
    · have hs : dqm_layout_step ss names (h, lg, v) x = (h ++ [names x], lg, v) := by
        unfold dqm_layout_step
        rw [if_pos hx]
      rw [hs, ih, List.filter_cons, List.filter_cons, List.all_cons]
      have hxd : decide (x = ss x) = true := decide_eq_true hx
      simp [hxd, List.append_assoc]
    · have hxd : decide (x = ss x) = false := decide_eq_false hx
      by_cases hy : ss (ss x) = ss x
      · have hs : dqm_layout_step ss names (h, lg, v) x
            = (h, lg ++ [(names x, names (ss x))], v) := by
          unfold dqm_layout_step
          rw [if_neg hx, if_neg (not_not_intro hy)]
        rw [hs, ih, List.filter_cons, List.filter_cons, List.all_cons]
        have hyd : decide (ss (ss x) = ss x) = true := decide_eq_true hy
        simp [hxd, hyd, List.append_assoc]
      · have hs : dqm_layout_step ss names (h, lg, v) x
            = (h, lg ++ [(names x, names (ss x))], false) := by
          unfold dqm_layout_step
          rw [if_neg hx, if_pos hy]
        rw [hs, ih, List.filter_cons, List.filter_cons, List.all_cons]
        have hyd : decide (ss (ss x) = ss x) = false := decide_eq_false hy
        simp [hxd, hyd, List.append_assoc]

lemma cqm_layout_foldl (ss : ℕ → ℕ) (names : ℕ → String) (l : List ℕ)
    (h : List String) (lg : List (String × String)) :
    l.foldl (cqm_layout_step ss names) (h, lg) =
      (h ++ (l.filter (fun k => decide (k = ss k))).map names,
       lg ++ (l.filter (fun k => !decide (k = ss k))).map
          (fun k => (names k, names (ss k)))) := by
  induction l generalizing h lg with
  | nil => simp
  | cons x xs ih =>
    rw [List.foldl_cons]
    by_cases hx : x = ss x
    · have hs : cqm_layout_step ss names (h, lg) x = (h ++ [names x], lg) := by
        unfold cqm_layout_step
        rw [if_pos hx]
      rw [hs, ih, List.filter_cons, List.filter_cons]
      have hxd : decide (x = ss x) = true := decide_eq_true hx
      simp [hxd, List.append_assoc]
    · have hs : cqm_layout_step ss names (h, lg) x
          = (h, lg ++ [(names x, names (ss x))]) := by
        unfold cqm_layout_step
        rw [if_neg hx]
      rw [hs, ih, List.filter_cons, List.filter_cons]
      have hxd : decide (x = ss x) = false := decide_eq_false hx
      simp [hxd, List.append_assoc]

/-- C4: the `valid` flag returned by `get_layout_from_sample` in the DQM path
is true if and only if every non-self-assigned city's assigned target is
itself self-assigned and the number of self-assigned cities equals `p`. -/
theorem c4_dqm_valid_iff (n : ℕ) (ss : ℕ → ℕ) (names : ℕ → String) (p : ℕ) :
    (dqm_get_layout_from_sample n ss names p).2.2 = true ↔
      ((∀ i < n, ss i ≠ i → ss (ss i) = ss i) ∧
       ((List.range n).filter (fun k => decide (k = ss k))).length = p) := by
  unfold dqm_get_layout_from_sample
  rw [dqm_layout_foldl]
  simp only [dqm_layout_finalize, List.nil_append, Bool.true_and,
    List.length_map]
  by_cases hp : ((List.range n).filter (fun k => decide (k = ss k))).length = p
  · rw [if_neg (not_not_intro hp), List.all_eq_true]
    constructor
    · intro hall
      refine ⟨fun i hi hne => ?_, hp⟩
      have h2 := hall i (List.mem_range.mpr hi)
      simp only [Bool.or_eq_true, decide_eq_true_eq] at h2
      rcases h2 with h2 | h2
      · exact absurd h2.symm hne
      · exact h2
    · rintro ⟨hall, -⟩ i hi
      simp only [Bool.or_eq_true, decide_eq_true_eq]
      by_cases hse : ss i = i
      · exact Or.inl hse.symm
      · exact Or.inr (hall i (List.mem_range.mp hi) hse)
  · rw [if_pos hp]
    simp only [Bool.false_eq_true, false_iff]
    exact fun hc => hp hc.2

/-- C9: in both scripts, `get_layout_from_sample` returns as `hubs` exactly
the names of the self-assigned cities in roster order and as `legs` exactly
the pairs `(city, assigned)` for the non-self-assigned cities in roster
order, and the two lists together account for all `n` cities. -/
theorem c9_layout_partition (n : ℕ) (ss : ℕ → ℕ) (names : ℕ → String)
    (p : ℕ) :
    (dqm_get_layout_from_sample n ss names p).1
        = ((List.range n).filter (fun k => decide (k = ss k))).map names ∧
    (dqm_get_layout_from_sample n ss names p).2.1
        = ((List.range n).filter (fun k => !decide (k = ss k))).map
            (fun k => (names k, names (ss k))) ∧
    cqm_get_layout_from_sample n ss names
        = ((dqm_get_layout_from_sample n ss names p).1,
           (dqm_get_layout_from_sample n ss names p).2.1) ∧
    (dqm_get_layout_from_sample n ss names p).1.length
        + (dqm_get_layout_from_sample n ss names p).2.1.length = n := by
  have hd :
      (dqm_get_layout_from_sample n ss names p).1
          = ((List.range n).filter (fun k => decide (k = ss k))).map names ∧
      (dqm_get_layout_from_sample n ss names p).2.1
          = ((List.range n).filter (fun k => !decide (k = ss k))).map
              (fun k => (names k, names (ss k))) := by
    unfold dqm_get_layout_from_sample
    rw [dqm_layout_foldl]
    exact ⟨by simp [dqm_layout_finalize], by simp [dqm_layout_finalize]⟩
  refine ⟨hd.1, hd.2, ?_, ?_⟩
  · rw [hd.1, hd.2]
    unfold cqm_get_layout_from_sample
    rw [cqm_layout_foldl]
    simp
  · rw [hd.1, hd.2]
    simp only [List.length_map]
    have hl := (List.length_eq_length_filter_add (l := List.range n)
      (fun k => decide (k = ss k))).symm
    simpa using hl

/-- Embedding of `np.sum(W, axis=0)` in `build_cqm`: column sums of the flow matrix. -/
def cqm_O_sum (n : ℕ) (W : ℕ → ℕ → ℚ) (i : ℕ) : ℚ := ∑ j ∈ range n, W j i

/-- Embedding of `np.sum(W, axis=1)` in `build_cqm`: row sums of the flow matrix. -/
def cqm_D_sum (n : ℕ) (W : ℕ → ℕ → ℚ) (i : ℕ) : ℚ := ∑ j ∈ range n, W i j

/-- Embedding of `obj_lin` from `build_cqm`, evaluated at 0/1 values `x i k` for the
indicator variables `x_i_k`:
`quicksum(vars[i][k]*C[i][k]*(O_sum[i]+D_sum[i]) for i … for k …)`. -/
def cqm_obj_lin (n : ℕ) (W C : ℕ → ℕ → ℚ) (x : ℕ → ℕ → ℚ) : ℚ :=
  ∑ i ∈ range n, ∑ k ∈ range n,
    x i k * C i k * (cqm_O_sum n W i + cqm_D_sum n W i)

/-- Embedding of `obj_quad` from `build_cqm`, evaluated at values `x i k`:
`quicksum(vars[j][m]*vars[i][k]*a*W[i][j]*C[k][m] for j … m … i … k …)`. -/
def cqm_obj_quad (n : ℕ) (a : ℚ) (W C : ℕ → ℕ → ℚ) (x : ℕ → ℕ → ℚ) : ℚ :=
  ∑ j ∈ range n, ∑ m ∈ range n, ∑ i ∈ range n, ∑ k ∈ range n,
    x j m * x i k * a * W i j * C k m

/-- A complete one-hot assignment: `x i k = 1` exactly when `k` is the hub
`kk i` chosen for city `i`. -/
def oneHot (kk : ℕ → ℕ) : ℕ → ℕ → ℚ :=
  fun i k => if k = kk i then 1 else 0

lemma sum_oneHot_mul (n t : ℕ) (ht : t < n) (g : ℕ → ℚ) :
    ∑ m ∈ range n, (if m = t then (1 : ℚ) else 0) * g m = g t := by
  have hc : ∀ m, (if m = t then (1 : ℚ) else 0) * g m = if m = t then g m else 0 := by
    intro m
    by_cases hm : m = t <;> simp [hm]
  rw [Finset.sum_congr rfl fun m _ => hc m, Finset.sum_ite_eq' (range n) t g,
    if_pos (Finset.mem_range.mpr ht)]

lemma cqm_obj_lin_oneHot (n : ℕ) (W C : ℕ → ℕ → ℚ) (kk : ℕ → ℕ)
    (h : ∀ i < n, kk i < n) :
    cqm_obj_lin n W C (oneHot kk)
      = ∑ i ∈ range n,
          C i (kk i) * (cqm_O_sum n W i + cqm_D_sum n W i) := by
  unfold cqm_obj_lin
  refine Finset.sum_congr rfl (fun i hi => ?_)
  have hg := sum_oneHot_mul n (kk i) (h i (Finset.mem_range.mp hi))
    (fun k => C i k * (cqm_O_sum n W i + cqm_D_sum n W i))
  rw [← hg]
  refine Finset.sum_congr rfl (fun k _ => ?_)
  simp only [oneHot]
  ring

lemma cqm_obj_quad_oneHot (n : ℕ) (a : ℚ) (W C : ℕ → ℕ → ℚ) (kk : ℕ → ℕ)
    (h : ∀ i < n, kk i < n) :
    cqm_obj_quad n a W C (oneHot kk)
      = ∑ j ∈ range n, ∑ i ∈ range n, a * W i j * C (kk i) (kk j) := by
  unfold cqm_obj_quad
  refine Finset.sum_congr rfl (fun j hj => ?_)
  have hpull : ∀ m, ∑ i ∈ range n, ∑ k ∈ range n,
      oneHot kk j m * oneHot kk i k * a * W i j * C k m
        = (if m = kk j then (1 : ℚ) else 0)
            * ∑ i ∈ range n, ∑ k ∈ range n, oneHot kk i k * a * W i j * C k m := by
    intro m
    rw [Finset.mul_sum]
    refine Finset.sum_congr rfl (fun i _ => ?_)
    rw [Finset.mul_sum]
    refine Finset.sum_congr rfl (fun k _ => ?_)
    simp only [oneHot]
    ring
  rw [Finset.sum_congr rfl fun m _ => hpull m,
    sum_oneHot_mul n (kk j) (h j (Finset.mem_range.mp hj))
      (fun m => ∑ i ∈ range n, ∑ k ∈ range n, oneHot kk i k * a * W i j * C k m)]
  refine Finset.sum_congr rfl (fun i hi => ?_)
  have hg := sum_oneHot_mul n (kk i) (h i (Finset.mem_range.mp hi))
    (fun k => a * W i j * C k (kk j))
  rw [← hg]
  refine Finset.sum_congr rfl (fun k _ => ?_)
  simp only [oneHot]
  ring

/-- C3: for every complete one-hot assignment (city `i` assigned to hub
`kk i < n`), the objective built by `build_cqm` (`obj_lin + obj_quad`)
evaluates to the ground-truth cost
`Σ_i Σ_j W[i][j] * (C[i][kk i] + C[j][kk j] + a * C[kk i][kk j])`. -/
theorem c3_cqm_objective_is_ground_truth (n : ℕ) (a : ℚ) (W C : ℕ → ℕ → ℚ)
    (kk : ℕ → ℕ) (h : ∀ i < n, kk i < n) :
    cqm_obj_lin n W C (oneHot kk) + cqm_obj_quad n a W C (oneHot kk)
      = groundTruthCost n a W C kk := by
  rw [cqm_obj_lin_oneHot n W C kk h, cqm_obj_quad_oneHot n a W C kk h]
  unfold groundTruthCost cqm_O_sum cqm_D_sum
  have hA : ∑ i ∈ range n, ∑ j ∈ range n, W i j * C i (kk i)
      = ∑ i ∈ range n, C i (kk i) * ∑ j ∈ range n, W i j := by
    refine Finset.sum_congr rfl (fun i _ => ?_)
    rw [Finset.mul_sum]
    exact Finset.sum_congr rfl (fun j _ => by ring)
  have hB : ∑ i ∈ range n, ∑ j ∈ range n, W i j * C j (kk j)
      = ∑ i ∈ range n, C i (kk i) * ∑ j ∈ range n, W j i := by
    rw [Finset.sum_comm]
    refine Finset.sum_congr rfl (fun i _ => ?_)
    rw [Finset.mul_sum]
    exact Finset.sum_congr rfl (fun j _ => by ring)
  have hC : ∑ i ∈ range n, ∑ j ∈ range n, W i j * (a * C (kk i) (kk j))
      = ∑ j ∈ range n, ∑ i ∈ range n, a * W i j * C (kk i) (kk j) := by
    rw [Finset.sum_comm]
    refine Finset.sum_congr rfl (fun j _ => ?_)
    exact Finset.sum_congr rfl (fun i _ => by ring)
  calc ∑ i ∈ range n, C i (kk i) * ((∑ j ∈ range n, W j i) + ∑ j ∈ range n, W i j)
        + ∑ j ∈ range n, ∑ i ∈ range n, a * W i j * C (kk i) (kk j)
      = (∑ i ∈ range n, C i (kk i) * ∑ j ∈ range n, W j i)
        + (∑ i ∈ range n, C i (kk i) * ∑ j ∈ range n, W i j)
        + ∑ j ∈ range n, ∑ i ∈ range n, a * W i j * C (kk i) (kk j) := by
        have hsplit :
            (∑ i ∈ range n,
              C i (kk i) * ((∑ j ∈ range n, W j i) + ∑ j ∈ range n, W i j))
              = (∑ i ∈ range n, C i (kk i) * ∑ j ∈ range n, W j i)
                + ∑ i ∈ range n, C i (kk i) * ∑ j ∈ range n, W i j := by
          rw [← Finset.sum_add_distrib]
          exact Finset.sum_congr rfl fun i _ => by ring
        rw [hsplit]
    _ = (∑ i ∈ range n, ∑ j ∈ range n, W i j * C j (kk j))
        + (∑ i ∈ range n, ∑ j ∈ range n, W i j * C i (kk i))
        + ∑ i ∈ range n, ∑ j ∈ range n, W i j * (a * C (kk i) (kk j)) := by
        rw [hA, hB, hC]
    _ = ∑ i ∈ range n, ∑ j ∈ range n,
          W i j * (C i (kk i) + C j (kk j) + a * C (kk i) (kk j)) := by
        rw [← Finset.sum_add_distrib, ← Finset.sum_add_distrib]
        refine Finset.sum_congr rfl (fun i _ => ?_)
        rw [← Finset.sum_add_distrib, ← Finset.sum_add_distrib]
        exact Finset.sum_congr rfl (fun j _ => by ring)

/-- Coefficient state of a `DiscreteQuadraticModel` under construction:
linear biases per (variable, case) and symmetric quadratic biases per pair
of (variable, case) points. -/
structure DqmState where
  lin : ℕ → ℕ → ℚ
  quad : ℕ × ℕ → ℕ × ℕ → ℚ

/-- Embedding of `dqm.set_linear_case(i, k, v)`: overwrites the linear bias of case `k`
of variable `i`. -/
def dqm_set_linear_case (st : DqmState) (i k : ℕ) (v : ℚ) : DqmState :=
  { st with lin := fun i' k' => if i' = i ∧ k' = k then v else st.lin i' k' }

/-- Embedding of `dqm.set_quadratic_case(i, k, j, m, v)`: overwrites the (symmetric)
quadratic bias between case `k` of variable `i` and case `m` of variable
`j`. -/
def dqm_set_quadratic_case (st : DqmState) (i k j m : ℕ) (v : ℚ) : DqmState :=
  { st with quad := fun u w =>
      if (u = (i, k) ∧ w = (j, m)) ∨ (u = (j, m) ∧ w = (i, k)) then v
      else st.quad u w }

/-- The body of the objective-assembly loop of `build_dqm` for one ordered
pair `(i, j)`: the first inner loop overwrites `linear(i, k)` with
`C[i][k]*W[i][j]` (a plain `set_linear_case`, not an accumulation), the
second accumulates `C[j][m]*W[i][j]` onto `linear(j, m)`, and for `i ≠ j`
the third overwrites `quadratic((i,k),(j,m))` with `a*C[k][m]*W[i][j]`. -/
def dqm_obj_step (n : ℕ) (W C : ℕ → ℕ → ℚ) (a : ℚ) (i j : ℕ)
    (st : DqmState) : DqmState :=
  let st1 := (List.range n).foldl
    (fun s k => dqm_set_linear_case s i k (C i k * W i j)) st
  let st2 := (List.range n).foldl
    (fun s m => dqm_set_linear_case s j m (s.lin j m + C j m * W i j)) st1
  (List.range n).foldl (fun s k =>
    (List.range n).foldl (fun s' m =>
      if i ≠ j then dqm_set_quadratic_case s' i k j m (a * C k m * W i j)
      else s') s) st2

/-- The objective-assembly loops of `build_dqm` (`for i in range(n): for j in
range(n): …`), run before the penalty loops for constraints 1 and 3, starting
from the all-zero coefficient state of a fresh model. -/
def dqm_build_objective (n : ℕ) (W C : ℕ → ℕ → ℚ) (a : ℚ) : DqmState :=
  (List.range n).foldl (fun s i =>
    (List.range n).foldl (fun s' j => dqm_obj_step n W C a i j s') s)
    ⟨fun _ _ => 0, fun _ _ => 0⟩

/-- Energy of a complete assignment `x` under the assembled objective
coefficients: the sum of the chosen linear biases plus each pairwise
quadratic bias counted once. -/
def dqm_objective_energy (n : ℕ) (W C : ℕ → ℕ → ℚ) (a : ℚ) (x : ℕ → ℕ) : ℚ :=
  (∑ i ∈ range n, (dqm_build_objective n W C a).lin i (x i))
    + ∑ i ∈ range n, ∑ j ∈ Finset.Ico (i + 1) n,
        (dqm_build_objective n W C a).quad (i, x i) (j, x j)

/-- Flow matrix with all mass on the diagonal entry `(0,0)`. -/
def diagW : ℕ → ℕ → ℚ := fun i j => if i = 0 ∧ j = 0 then 1 else 0

/-- C2: evaluation of the failing input.  With `n = 2`,
`W = [[1,0],[0,0]]`, `C` all ones and `a = 0`, the claim's linear
coefficient for (city 0, case 0) is `C[0][0]*(Σ_j W[0][j] + Σ_j W[j][0]) = 2`
and the claimed objective value of the assignment `x = (0,0)` is `2`, but the
coefficients actually assembled by `build_dqm` give linear bias `0` and total
objective energy `0`: the first inner loop's plain `set_linear_case`
overwrites (rather than accumulates) the coefficient on every pass of `j`,
destroying the contribution of `W[0][0]`. -/
theorem c2_dqm_objective_assembly_diverges :
    (dqm_build_objective 2 diagW onesC 0).lin 0 0 = 0 ∧
    onesC 0 0 * ((∑ j ∈ range 2, diagW 0 j) + ∑ j ∈ range 2, diagW j 0) = 2 ∧
    dqm_objective_energy 2 diagW onesC 0 (fun _ => 0) = 0 ∧
    groundTruthCost 2 0 diagW onesC (fun _ => 0) = 2 := by
  refine ⟨?_, ?_, ?_, ?_⟩
  · norm_num [dqm_build_objective, dqm_obj_step, dqm_set_linear_case,
      dqm_set_quadratic_case, List.range_succ, diagW, onesC]
  · norm_num [Finset.sum_range_succ, diagW, onesC]
  · norm_num [dqm_objective_energy, dqm_build_objective, dqm_obj_step,
      dqm_set_linear_case, dqm_set_quadratic_case, List.range_succ,
      Finset.sum_range_succ, Finset.sum_Ico_eq_sum_range, diagW, onesC]
  · norm_num [groundTruthCost, Finset.sum_range_succ, diagW, onesC]

/-- Stable descending insertion by cost: the new item goes after every
earlier item whose cost is at least as large, mirroring Python's stable
`sorted(cost_dict.items(), key=lambda item: item[1], reverse=True)`. -/
def insert_desc (x : ℕ × ℚ) : List (ℕ × ℚ) → List (ℕ × ℚ)
  | [] => [x]
  | y :: ys => if y.2 < x.2 then x :: y :: ys else y :: insert_desc x ys

/-- Sorting of the cost dictionary items, worst cost first. -/
def sort_desc (l : List (ℕ × ℚ)) : List (ℕ × ℚ) :=
  l.foldl (fun acc x => insert_desc x acc) []

/-- One iteration of the candidate loop of `demo-dqm.py`'s main block, over
state (kept candidates, `counter`, `prev_val`): the structural `valid` flag
is cleared when `counter > 0` and `prev_val == val`; a valid candidate is
rendered (appended) and bumps `counter`; `prev_val` is set to `val` at the
end of every iteration, kept or not. -/
def dqm_loop_step (valid_of : ℕ → Bool)
    (st : List (ℕ × ℚ) × ℕ × Option ℚ) (kv : ℕ × ℚ) :
    List (ℕ × ℚ) × ℕ × Option ℚ :=
  let valid0 := valid_of kv.1
  let valid1 := if 0 < st.2.1 ∧ st.2.2 = some kv.2 then false else valid0
  if valid1 then (st.1 ++ [kv], st.2.1 + 1, some kv.2)
  else (st.1, st.2.1, some kv.2)

/-- The candidate loop of `demo-dqm.py`'s main block: returns the sequence
of (key, cost) pairs actually rendered, in order. -/
def dqm_candidate_loop (valid_of : ℕ → Bool) (cands : List (ℕ × ℚ)) :
    List (ℕ × ℚ) :=
  (cands.foldl (dqm_loop_step valid_of) ([], 0, none)).1

/-- The keep rule as the claim states it: a structurally valid candidate is
suppressed exactly when at least one candidate has already been kept and its
cost equals the cost of the previous already-kept candidate (state: kept
candidates and the last kept cost). -/
def dqm_keep_by_last_kept (valid_of : ℕ → Bool) (cands : List (ℕ × ℚ)) :
    List (ℕ × ℚ) :=
  (cands.foldl (fun st kv =>
    if valid_of kv.1 = true ∧ ¬(0 < st.1.length ∧ st.2 = some kv.2)
    then (st.1 ++ [kv], some kv.2) else st) (([] : List (ℕ × ℚ)), none)).1

/-- The keep rule the code actually implements, written with the previous
iterated candidate's cost made explicit: a structurally valid candidate is
suppressed exactly when at least one candidate has already been kept and its
cost equals the cost of the immediately preceding candidate in iteration
order, kept or not. -/
def dqm_keep_by_prev_iterated (valid_of : ℕ → Bool) :
    Option ℚ → ℕ → List (ℕ × ℚ) → List (ℕ × ℚ)
  | _, _, [] => []
  | prev, counter, kv :: rest =>
    if valid_of kv.1 = true ∧ ¬(0 < counter ∧ prev = some kv.2)
    then kv :: dqm_keep_by_prev_iterated valid_of (some kv.2) (counter + 1) rest
    else dqm_keep_by_prev_iterated valid_of (some kv.2) counter rest

lemma dqm_loop_step_eq (valid_of : ℕ → Bool)
    (st : List (ℕ × ℚ) × ℕ × Option ℚ) (kv : ℕ × ℚ) :
    dqm_loop_step valid_of st kv =
      if valid_of kv.1 = true ∧ ¬(0 < st.2.1 ∧ st.2.2 = some kv.2)
      then (st.1 ++ [kv], st.2.1 + 1, some kv.2)
      else (st.1, st.2.1, some kv.2) := by
  unfold dqm_loop_step
  dsimp only
  split_ifs <;> simp_all

lemma dqm_loop_foldl (valid_of : ℕ → Bool) (l : List (ℕ × ℚ))
    (kept : List (ℕ × ℚ)) (counter : ℕ) (prev : Option ℚ) :
    (l.foldl (dqm_loop_step valid_of) (kept, counter, prev)).1
      = kept ++ dqm_keep_by_prev_iterated valid_of prev counter l := by
  induction l generalizing kept counter prev with
  | nil => simp [dqm_keep_by_prev_iterated]
  | cons kv rest ih =>
    rw [List.foldl_cons, dqm_loop_step_eq]
    by_cases h : valid_of kv.1 = true ∧ ¬(0 < counter ∧ prev = some kv.2)
    · rw [if_pos h, ih]
      conv_rhs => rw [dqm_keep_by_prev_iterated]
      rw [if_pos h]
      simp
    · rw [if_neg h, ih]
      conv_rhs => rw [dqm_keep_by_prev_iterated]
      rw [if_neg h]

lemma dqm_candidate_loop_eq_prev_iterated (valid_of : ℕ → Bool)
    (cands : List (ℕ × ℚ)) :
    dqm_candidate_loop valid_of cands
      = dqm_keep_by_prev_iterated valid_of none 0 cands := by
  unfold dqm_candidate_loop
  rw [dqm_loop_foldl]
  simp

/-- The interpretive tail of `demo-dqm.py`'s main block: cost each sample
with `get_cost`, sort the cost-dictionary items by cost descending, and run
the candidate loop.  Returns the rendered (key, cost) pairs in order. -/
def dqm_interpret (n p : ℕ) (a : ℚ) (W C : ℕ → ℕ → ℚ) (names : ℕ → String)
    (num : ℕ) (samples : ℕ → ℕ → ℕ) : List (ℕ × ℚ) :=
  dqm_candidate_loop
    (fun k => (dqm_get_layout_from_sample n (samples k) names p).2.2)
    (sort_desc ((List.range num).map
      (fun k => (k, get_cost_sum n (samples k) a W C))))

/-- Same tail but with the keep rule the claim describes (suppression against
the previous already-kept candidate's cost). -/
def dqm_interpret_by_last_kept (n p : ℕ) (a : ℚ) (W C : ℕ → ℕ → ℚ)
    (names : ℕ → String) (num : ℕ) (samples : ℕ → ℕ → ℕ) : List (ℕ × ℚ) :=
  dqm_keep_by_last_kept
    (fun k => (dqm_get_layout_from_sample n (samples k) names p).2.2)
    (sort_desc ((List.range num).map
      (fun k => (k, get_cost_sum n (samples k) a W C))))

/-- Flow matrix with all mass on entry `(0,1)`. -/
def flow01 : ℕ → ℕ → ℚ := fun i j => if i = 0 ∧ j = 1 then 1 else 0

/-- Cost matrix with `C[0][0] = 3` and all other entries `1`. -/
def costA : ℕ → ℕ → ℚ := fun i j => if i = 0 ∧ j = 0 then 3 else 1

/-- Three solver samples over two cities: sample 0 assigns both cities to
city 0 (valid for `p = 1`), sample 1 swaps the two cities (structurally
invalid), sample 2 assigns both cities to city 1 (valid for `p = 1`). -/
def c5_samples : ℕ → ℕ → ℕ :=
  fun k => if k = 0 then (fun _ => 0)
    else if k = 1 then (fun i => 1 - i) else (fun _ => 1)

/-- C5: counterexample.  On the concrete instance (`n = 2`, `p = 1`,
`a = 0`, flow `flow01`, costs `costA`, three samples with costs `4, 2, 2` in
sorted order, the cost-2 invalid sample iterated between the two valid
ones), the code keeps only candidate 0: candidate 2 is structurally valid
and its cost `2` differs from the previous already-kept candidate's cost
`4`, yet it is suppressed because `prev_val` was updated by the discarded
invalid candidate 1.  The keep rule the claim describes would keep
candidate 2 as well, so the claim's iff is false on the code. -/
theorem c5_suppression_counterexample :
    dqm_interpret 2 1 0 flow01 costA (fun k => toString k) 3 c5_samples
        = [(0, 4)] ∧
    dqm_interpret_by_last_kept 2 1 0 flow01 costA (fun k => toString k) 3
        c5_samples = [(0, 4), (2, 2)] ∧
    dqm_interpret 2 1 0 flow01 costA (fun k => toString k) 3 c5_samples
        ≠ dqm_interpret_by_last_kept 2 1 0 flow01 costA (fun k => toString k)
            3 c5_samples := by
  have hc0 : get_cost_sum 2 (c5_samples 0) 0 flow01 costA = 4 := by
    norm_num [get_cost_sum, c5_samples, flow01, costA,
      Finset.sum_Ico_eq_sum_range, Finset.sum_range_succ]
  have hc1 : get_cost_sum 2 (c5_samples 1) 0 flow01 costA = 2 := by
    norm_num [get_cost_sum, c5_samples, flow01, costA,
      Finset.sum_Ico_eq_sum_range, Finset.sum_range_succ]
  have hc2 : get_cost_sum 2 (c5_samples 2) 0 flow01 costA = 2 := by
    norm_num [get_cost_sum, c5_samples, flow01, costA,
      Finset.sum_Ico_eq_sum_range, Finset.sum_range_succ]
  have hlist : (List.range 3).map
      (fun k => (k, get_cost_sum 2 (c5_samples k) 0 flow01 costA))
        = [(0, 4), (1, 2), (2, 2)] := by
    norm_num [List.range_succ, hc0, hc1, hc2]
  have hsort : sort_desc [(0, (4 : ℚ)), (1, 2), (2, 2)]
      = [(0, 4), (1, 2), (2, 2)] := by
    norm_num [sort_desc, insert_desc]
  have hv0 : (dqm_get_layout_from_sample 2 (c5_samples 0)
      (fun k => toString k) 1).2.2 = true := by
    norm_num [dqm_get_layout_from_sample, dqm_layout_finalize,
      dqm_layout_step, c5_samples, List.range_succ]
  have hv1 : (dqm_get_layout_from_sample 2 (c5_samples 1)
      (fun k => toString k) 1).2.2 = false := by
    norm_num [dqm_get_layout_from_sample, dqm_layout_finalize,
      dqm_layout_step, c5_samples, List.range_succ]
  have hv2 : (dqm_get_layout_from_sample 2 (c5_samples 2)
      (fun k => toString k) 1).2.2 = true := by
    norm_num [dqm_get_layout_from_sample, dqm_layout_finalize,
      dqm_layout_step, c5_samples, List.range_succ]
  refine ⟨?_, ?_, ?_⟩
  · unfold dqm_interpret
    rw [hlist, hsort]
    norm_num [dqm_candidate_loop, dqm_loop_step, hv0, hv1, hv2]
  · unfold dqm_interpret_by_last_kept
    rw [hlist, hsort]
    norm_num [dqm_keep_by_last_kept, hv0, hv1, hv2]
  · unfold dqm_interpret dqm_interpret_by_last_kept
    rw [hlist, hsort]
    norm_num [dqm_candidate_loop, dqm_keep_by_last_kept, dqm_loop_step,
      hv0, hv1, hv2]

/-- C5 (amended): in the DQM path's candidate loop, a structurally valid
candidate is suppressed from rendering if and only if at least one candidate
has already been kept and its cost exactly equals the cost of the
immediately preceding candidate in the sorted iteration order — kept or not
(`prev_val` is updated on every iteration); suppression still depends only
on cost equality, never on structural equality of the assignments. -/
theorem c5_suppression_by_prev_iterated (valid_of : ℕ → Bool)
    (cands : List (ℕ × ℚ)) :
    dqm_candidate_loop valid_of cands
      = dqm_keep_by_prev_iterated valid_of none 0 cands :=
  dqm_candidate_loop_eq_prev_iterated valid_of cands

lemma mem_insert_desc (x y : ℕ × ℚ) (l : List (ℕ × ℚ)) :
    y ∈ insert_desc x l → y = x ∨ y ∈ l := by
  induction l with
  | nil => simp [insert_desc]
  | cons z zs ih =>
    simp only [insert_desc]
    split_ifs
    · intro hy
      simpa using hy
    · intro hy
      rcases List.mem_cons.mp hy with h1 | h2
      · exact Or.inr (by simp [h1])
      · rcases ih h2 with h3 | h4
        · exact Or.inl h3
        · exact Or.inr (List.mem_cons_of_mem _ h4)

lemma insert_desc_pairwise (x : ℕ × ℚ) (l : List (ℕ × ℚ))
    (hl : l.Pairwise (fun a b => b.2 ≤ a.2)) :
    (insert_desc x l).Pairwise (fun a b => b.2 ≤ a.2) := by
  induction l with
  | nil => simp [insert_desc]
  | cons z zs ih =>
    rw [List.pairwise_cons] at hl
    simp only [insert_desc]
    split_ifs with hz
    · refine List.Pairwise.cons ?_ (List.Pairwise.cons hl.1 hl.2)
      intro b hb
      rcases List.mem_cons.mp hb with h1 | h2
      · rw [h1]
        exact le_of_lt hz
      · exact le_trans (hl.1 b h2) (le_of_lt hz)
    · refine List.Pairwise.cons ?_ (ih hl.2)
      intro b hb
      rcases mem_insert_desc x b zs hb with h1 | h2
      · rw [h1]
        exact le_of_not_lt hz
      · exact hl.1 b h2

lemma sort_desc_pairwise (l : List (ℕ × ℚ)) :
    (sort_desc l).Pairwise (fun a b => b.2 ≤ a.2) := by
  have hgen : ∀ (l' acc : List (ℕ × ℚ)),
      acc.Pairwise (fun a b => b.2 ≤ a.2) →
      (l'.foldl (fun acc x => insert_desc x acc) acc).Pairwise
        (fun a b => b.2 ≤ a.2) := by
    intro l'
    induction l' with
    | nil => exact fun acc h => h
    | cons x xs ih =>
      intro acc h
      exact ih _ (insert_desc_pairwise x acc h)
  exact hgen l [] (by simp)

lemma keep_prev_iterated_sublist (valid_of : ℕ → Bool) (prev : Option ℚ)
    (counter : ℕ) (l : List (ℕ × ℚ)) :
    List.Sublist (dqm_keep_by_prev_iterated valid_of prev counter l) l := by
  induction l generalizing prev counter with
  | nil => simp [dqm_keep_by_prev_iterated]
  | cons kv rest ih =>
    simp only [dqm_keep_by_prev_iterated]
    split_ifs
    · exact List.Sublist.cons₂ kv (ih _ _)
    · exact List.Sublist.cons kv (ih _ _)

/-- C6: in both pipelines the rendered candidate sequence is ordered by cost
in monotonically non-increasing order.  For any finite cost map (given as
its item list) and any structural-validity predicate, the costs of the
candidates kept by the DQM candidate loop over the descending-sorted items,
and the costs of the sorted items themselves (the CQM path renders all of
them), each form a chain where every earlier cost is `≥` the next. -/
theorem c6_rendered_costs_non_increasing (costItems : List (ℕ × ℚ))
    (valid_of : ℕ → Bool) :
    List.Chain' (fun a b => b ≤ a)
      ((dqm_candidate_loop valid_of (sort_desc costItems)).map Prod.snd) ∧
    List.Chain' (fun a b => b ≤ a) ((sort_desc costItems).map Prod.snd) := by
  have hs := sort_desc_pairwise costItems
  constructor
  · have hsub : List.Sublist (dqm_candidate_loop valid_of (sort_desc costItems))
        (sort_desc costItems) := by
      rw [dqm_candidate_loop_eq_prev_iterated]
      exact keep_prev_iterated_sublist valid_of none 0 (sort_desc costItems)
    have hp := hs.sublist hsub
    exact (List.pairwise_map.mpr hp).chain'
  · exact (List.pairwise_map.mpr hs).chain'

/-- The rendering loop of `demo_cqm.py`'s main block: every feasible
candidate (already cost-sorted) produces one frame filename
`str(counter)+'.png'` and bumps the counter; no filtering or suppression is
applied in the CQM path. -/
def cqm_render_filenames (cands : List (ℕ × ℚ)) : List String :=
  (cands.foldl (fun st _kv => (st.1 ++ [toString st.2 ++ ".png"], st.2 + 1))
    (([] : List String), (0 : ℕ))).1

/-- The best-solution step of `demo_cqm.py`
(`img = plt.imread(filenames[-1])`): Python's `filenames[-1]` yields the
last element, or raises `IndexError` on an empty list. -/
def cqm_best_soln_step (filenames : List String) : Except String String :=
  match filenames.getLast? with
  | none => Except.error "IndexError: list index out of range"
  | some f => Except.ok f

/-- The tail of `demo_cqm.py`'s main block after the feasibility filter:
sorts the cost items of the feasible samples, renders one frame per
candidate, then reads back `filenames[-1]`. -/
def cqm_main_tail (costItems : List (ℕ × ℚ)) : Except String String :=
  cqm_best_soln_step (cqm_render_filenames (sort_desc costItems))

/-- C8: when the feasibility-filtered sample list is empty, the CQM path
renders no frames (`filenames` stays empty) and the best-solution step's
`filenames[-1]` reaches the out-of-bounds-index error branch instead of
completing normally or reporting a missing-feasible-solution result. -/
theorem c8_cqm_empty_feasible_set_index_error :
    cqm_render_filenames (sort_desc []) = [] ∧
    cqm_main_tail [] = Except.error "IndexError: list index out of range" := by
  constructor
  · rfl
  · rfl

/-- C3 witness: a concrete `n = 2` instance with `kk = id` (both cities are
their own hubs), discharging the completeness hypothesis. -/
theorem c3_cqm_objective_is_ground_truth_witness :
    (∀ i < 2, id i < 2) ∧
    cqm_obj_lin 2 lowerW onesC (oneHot id)
        + cqm_obj_quad 2 (1/2) lowerW onesC (oneHot id)
      = groundTruthCost 2 (1/2) lowerW onesC id :=
  ⟨fun _ hi => hi, c3_cqm_objective_is_ground_truth 2 (1/2) lowerW onesC id
    (fun _ hi => hi)⟩
